import Mathlib

/-!
Verification of the hierarchical selection-state engine of `dir_context_builder`
(`src/main.cpp`): the selection Store, the directory tri-state cache
(`CalculateAndCacheDirectoryState`), the mutators (`SetSelectionRecursively`,
`InvalidateParentCaches`, the click handlers inside `DrawDirectoryTree`) and the
context aggregator (`GenerateContext`).

The filesystem is modelled as an immutable tree of nodes (`FSNode`); a node is a
regular file, a listable directory with named children, or a directory whose
listing fails with a filesystem error (`badDir`).  A path is the list of name
components below the scan root, so the scan root itself is `[]`; this mirrors the
relative paths (rooted at the `"."` path buffer) that the application passes
around.  `std::map` keys are modelled as functions to `Option` so that presence
and absence of an entry are observable.
-/

namespace DirContext

/-- The tri-state of a directory, `enum class SelectionState` in `main.cpp`. -/
inductive SelectionState : Type where
  | NotSelected : SelectionState
  | PartiallySelected : SelectionState
  | FullySelected : SelectionState
deriving DecidableEq, Repr

/-- A path below the scan root: the list of name components.  `[]` is the root. -/
abbrev Path : Type := List String

/-- The selection Store: `std::map<std::string, bool> selection`.
`none` models absence of the key. -/
abbrev Store : Type := Path → Option Bool

/-- The directory state cache: `std::map<std::string, SelectionState>
directory_state_cache`.  `none` models absence of the key. -/
abbrev Cache : Type := Path → Option SelectionState

/-- The effective selection of a path: `selection.count(p) && selection.at(p)`.
An absent entry counts as not selected. -/
def sel (st : Store) (p : Path) : Bool := (st p).getD false

/-- `std::map::operator[] = v` / `insert_or_assign`: set key `k` to `v`. -/
def upd {β : Type} (m : Path → Option β) (k : Path) (v : β) : Path → Option β :=
  fun q => if q = k then some v else m q

/-- `std::map::erase k`. -/
def eraseKey {β : Type} (m : Path → Option β) (k : Path) : Path → Option β :=
  fun q => if q = k then none else m q

/-- A node of the live filesystem tree.  `badDir` is a directory whose listing
(`fs::is_empty` / `fs::directory_iterator`) fails with `fs::filesystem_error`
(permission or I/O error). -/
inductive FSNode : Type where
  | file : FSNode
  | badDir : FSNode
  | dir : List (String × FSNode) → FSNode
deriving Repr

/-- Follow a path from a node down the tree. -/
def findNode : FSNode → Path → Option FSNode
  | n, [] => some n
  | .dir cs, x :: rest =>
      match cs.lookup x with
      | some c => findNode c rest
      | none => none
  | .file, _ :: _ => none
  | .badDir, _ :: _ => none

/-- Well-formedness of a filesystem tree: sibling names are distinct at every
directory (as they are in a real directory listing). -/
inductive WFNode : FSNode → Prop where
  | file : WFNode .file
  | badDir : WFNode .badDir
  | dir (cs : List (String × FSNode)) (nodup : (cs.map Prod.fst).Nodup)
      (children : ∀ e ∈ cs, WFNode e.2) : WFNode (.dir cs)

/-- Combine the final `found_selected` / `found_unselected` flags into the
directory's tri-state (the tail of both `GetDirectorySelectionState` and
`CalculateAndCacheDirectoryState`). -/
def stateOfFlags (fsel funsel : Bool) : SelectionState :=
  if fsel && funsel then .PartiallySelected
  else if fsel then .FullySelected
  else .NotSelected

mutual

/-- The cache-free recomputation of a directory's tri-state: what
`CalculateAndCacheDirectoryState` computes when every cache lookup misses.
A `file` node fed to it yields `NotSelected` (`fs::is_empty` on an empty file is
`true`, and on a non-empty file `fs::directory_iterator` throws, is caught, and
both flags stay `false`); a `badDir` likewise (`fs::is_empty` throws, the inner
`catch` swallows it, both flags stay `false`). -/
def pureNode (st : Store) (p : Path) : FSNode → SelectionState
  | .file => .NotSelected
  | .badDir => .NotSelected
  | .dir cs =>
      let f := pureChildren st p cs
      stateOfFlags f.1 f.2

/-- The full (no early exit) `found_selected` / `found_unselected` aggregation
over a child list: a file child contributes its Store value, a directory child
contributes through its recursively computed tri-state
(`child_state != NotSelected` / `child_state != FullySelected`). -/
def pureChildren (st : Store) (p : Path) : List (String × FSNode) → Bool × Bool
  | [] => (false, false)
  | (nm, c) :: rest =>
      let hd : Bool × Bool :=
        match c with
        | .file => (sel st (p ++ [nm]), !sel st (p ++ [nm]))
        | c =>
            let s := pureNode st (p ++ [nm]) c
            (decide (s ≠ .NotSelected), decide (s ≠ .FullySelected))
      let tl := pureChildren st p rest
      (hd.1 || tl.1, hd.2 || tl.2)

end

mutual

/-- `CalculateAndCacheDirectoryState` from `main.cpp`: return the cached
tri-state on a hit; otherwise compute it by iterating the children (recursing
into subdirectories, which caches them as a side effect), with the early
`break` once both flags are true, and cache the result before returning.
An unlistable directory (`badDir`): `fs::is_empty` throws, the inner `catch`
ignores it, both flags stay `false`, so `NotSelected` is cached and returned. -/
def CalculateAndCacheDirectoryState (st : Store) (p : Path) (n : FSNode)
    (ca : Cache) : SelectionState × Cache :=
  match ca p, n with
  | some s, _ => (s, ca)
  | none, .file => (.NotSelected, upd ca p .NotSelected)
  | none, .badDir => (.NotSelected, upd ca p .NotSelected)
  | none, .dir [] => (.NotSelected, upd ca p .NotSelected)
  | none, .dir (c :: cs) =>
      let r := calcChildren st p (c :: cs) false false ca
      let s := stateOfFlags r.1 r.2.1
      (s, upd r.2.2 p s)

/-- The child loop of `CalculateAndCacheDirectoryState`, threading the
`found_selected` / `found_unselected` flags and the cache; `if (found_selected
&& found_unselected) break;` is checked at the top of each iteration. -/
def calcChildren (st : Store) (p : Path) (l : List (String × FSNode))
    (fsel funsel : Bool) (ca : Cache) : Bool × Bool × Cache :=
  match l with
  | [] => (fsel, funsel, ca)
  | (nm, .file) :: rest =>
      if fsel && funsel then (fsel, funsel, ca)
      else
        let s := sel st (p ++ [nm])
        calcChildren st p rest (fsel || s) (funsel || !s) ca
  | (nm, .badDir) :: rest =>
      if fsel && funsel then (fsel, funsel, ca)
      else
        let r := CalculateAndCacheDirectoryState st (p ++ [nm]) .badDir ca
        calcChildren st p rest (fsel || decide (r.1 ≠ .NotSelected))
          (funsel || decide (r.1 ≠ .FullySelected)) r.2
  | (nm, .dir cs) :: rest =>
      if fsel && funsel then (fsel, funsel, ca)
      else
        let r := CalculateAndCacheDirectoryState st (p ++ [nm]) (.dir cs) ca
        calcChildren st p rest (fsel || decide (r.1 ≠ .NotSelected))
          (funsel || decide (r.1 ≠ .FullySelected)) r.2

end

mutual

/-- `SetSelectionRecursively` from `main.cpp`: write `selected` into the Store
at this path, erase this path's cache entry, and recurse into every child when
the path is a directory.  The function has no `try`/`catch`: when
`fs::directory_iterator` fails on an unlistable directory the
`fs::filesystem_error` propagates to the caller, modelled as `.error ()`. -/
def SetSelectionRecursively (v : Bool) (p : Path) (n : FSNode) (st : Store)
    (ca : Cache) : Except Unit (Store × Cache) :=
  let st1 := upd st p v
  let ca1 := eraseKey ca p
  match n with
  | .file => .ok (st1, ca1)
  | .badDir => .error ()
  | .dir cs => setRecChildren v p cs st1 ca1

/-- The child loop of `SetSelectionRecursively`: sequentially recurse into each
entry, aborting (the exception propagates) on the first failure. -/
def setRecChildren (v : Bool) (p : Path) (l : List (String × FSNode))
    (st : Store) (ca : Cache) : Except Unit (Store × Cache) :=
  match l with
  | [] => .ok (st, ca)
  | (nm, c) :: rest =>
      (SetSelectionRecursively v (p ++ [nm]) c st ca).bind fun s =>
        setRecChildren v p rest s.1 s.2

end

/-- `InvalidateParentCaches` from `main.cpp`, on the root-relative component
paths the application uses (scan root `"."`, entries `"./a/b"`): walk the parent
chain, erasing each parent's cache entry, until the current path has no parent.
In component form, the parent of `x :: xs` is `(x :: xs).dropLast` and the scan
root `[]` has no parent. -/
def InvalidateParentCaches (p : Path) (ca : Cache) : Cache :=
  match p with
  | [] => ca
  | x :: xs => InvalidateParentCaches (x :: xs).dropLast
      (eraseKey ca (x :: xs).dropLast)
termination_by p.length
decreasing_by simp [List.length_dropLast]

/-!
### The C++ `fs::path` parent chain, for `InvalidateParentCaches` on raw paths

`InvalidateParentCaches` as written operates on arbitrary `fs::path` values.
We model a C++ path by whether it is absolute (has a root directory) plus its
relative components, and the loop by a fuel-indexed step function, faithful to
`while (current.has_parent_path() && !current.parent_path().empty())`.
-/

/-- A C++ `std::filesystem::path` (POSIX, no root name): an optional leading
root directory plus the list of relative components. -/
structure CppPath : Type where
  absolute : Bool
  comps : List String
deriving DecidableEq, Repr

/-- `fs::path::empty()`: true only for the empty path `""` (no root directory
and no components). -/
def CppPath.isEmptyPath (p : CppPath) : Bool := !p.absolute && p.comps.isEmpty

/-- `fs::path::parent_path()`: if the path has no relative part (`""` or `"/"`)
it returns a copy of itself; otherwise it drops the last component. -/
def CppPath.parentPath (p : CppPath) : CppPath :=
  if p.comps.isEmpty then p else ⟨p.absolute, p.comps.dropLast⟩

/-- The loop guard of `InvalidateParentCaches`:
`current.has_parent_path() && !current.parent_path().empty()`, where
`has_parent_path()` is itself `!parent_path().empty()`. -/
def CppPath.loopGuard (p : CppPath) : Bool := !p.parentPath.isEmptyPath

/-- The `while` loop of `InvalidateParentCaches` on C++ paths, with fuel: each
iteration erases the parent's cache entry and steps to the parent; `none` means
the fuel ran out without the guard ever becoming false. -/
def InvalidateParentCachesFuel : Nat → CppPath → (CppPath → Option SelectionState)
    → Option (CppPath → Option SelectionState)
  | 0, _, _ => none
  | fuel + 1, cur, ca =>
      if cur.loopGuard then
        InvalidateParentCachesFuel fuel cur.parentPath
          (fun q => if q = cur.parentPath then none else ca q)
      else some ca

/-!
### The UI operations (`DrawDirectoryTree` click handlers) as state transitions

The state is the pair (Store, Cache).  `applyOp` embeds the operations the UI
performs: a redraw's read-only `resolve` on a visible directory, a click on a
file row (lines 315-319: flip `selection[path]`, then `InvalidateParentCaches`),
a directory-icon click (lines 281-288: read the tri-state via
`CalculateAndCacheDirectoryState`, compute
`new_selection_state = (state == SelectionState::NotSelected)`, then
`SetSelectionRecursively` and `InvalidateParentCaches`), a bare
`SetSelectionRecursively` call, and the "Recalculate States" button
(`directory_state_cache.clear()`).  `none` marks an operation whose
precondition fails (path not present in the tree, or the recursion's
filesystem exception escaping). -/
inductive Op : Type where
  | resolveDir : Path → Op
  | toggleFile : Path → Op
  | setRecursive : Path → Bool → Op
  | clickDir : Path → Op
  | clearAll : Op

/-- One UI operation on the (Store, Cache) state, over the fixed tree `fs`. -/
def applyOp (fs : FSNode) (op : Op) (s : Store × Cache) :
    Option (Store × Cache) :=
  match op with
  | .resolveDir p =>
      match findNode fs p with
      | some n => some (s.1, (CalculateAndCacheDirectoryState s.1 p n s.2).2)
      | none => none
  | .toggleFile p =>
      match findNode fs p with
      | some .file =>
          some (upd s.1 p (!sel s.1 p), InvalidateParentCaches p s.2)
      | _ => none
  | .setRecursive p v =>
      match findNode fs p with
      | some n =>
          match SetSelectionRecursively v p n s.1 s.2 with
          | .ok (st', ca') => some (st', InvalidateParentCaches p ca')
          | .error _ => none
      | none => none
  | .clickDir p =>
      match findNode fs p with
      | some n =>
          let r := CalculateAndCacheDirectoryState s.1 p n s.2
          match SetSelectionRecursively (r.1 == .NotSelected) p n s.1 r.2 with
          | .ok (st', ca') => some (st', InvalidateParentCaches p ca')
          | .error _ => none
      | none => none
  | .clearAll => some (s.1, fun _ => none)

/-- A finite sequence of UI operations, applied left to right. -/
def applyOps (fs : FSNode) : List Op → Store × Cache → Option (Store × Cache)
  | [], s => some s
  | op :: rest, s =>
      match applyOp fs op s with
      | some s' => applyOps fs rest s'
      | none => none

/-!
### `CheckChildrenState` and `GetDirectorySelectionState`

These form the non-caching helper (defined in `main.cpp` but never called by
the UI, which uses `CalculateAndCacheDirectoryState`).  `CheckChildrenState`
flattens the subtree: every descendant file contributes directly to the two
flags; a subtree whose listing fails contributes nothing (the recursive call
throws at its `fs::directory_iterator` and the parent's per-entry `catch`
swallows it and continues). -/
def CheckChildrenState (st : Store) (p : Path) :
    List (String × FSNode) → Bool × Bool → Bool × Bool
  | [], acc => acc
  | (nm, .file) :: rest, acc =>
      CheckChildrenState st p rest
        (acc.1 || sel st (p ++ [nm]), acc.2 || !sel st (p ++ [nm]))
  | (_, .badDir) :: rest, acc => CheckChildrenState st p rest acc
  | (nm, .dir cs) :: rest, acc =>
      CheckChildrenState st p rest
        (if acc.1 && acc.2 then acc else CheckChildrenState st (p ++ [nm]) cs acc)

/-- `GetDirectorySelectionState` from `main.cpp`: when the path does not exist,
is not a directory, or is empty, fall back to the path's own Store entry;
when `fs::is_empty` throws (unlistable directory) the surrounding `catch`
returns `NotSelected`; otherwise aggregate the flattened flags. -/
def GetDirectorySelectionState (st : Store) (p : Path) (n : Option FSNode) :
    SelectionState :=
  match n with
  | none => if sel st p then .FullySelected else .NotSelected
  | some .file => if sel st p then .FullySelected else .NotSelected
  | some (.dir []) => if sel st p then .FullySelected else .NotSelected
  | some .badDir => .NotSelected
  | some (.dir (c :: cs)) =>
      let f := CheckChildrenState st p (c :: cs) (false, false)
      stateOfFlags f.1 f.2

/-!
### The click-free part of `DrawDirectoryTree`

A redraw with no click events walks the visible tree (all tree nodes open, the
worst case): for each subdirectory it calls `CalculateAndCacheDirectoryState`
(read-only on the Store, which is passed by `const` reference) and recurses;
for each file row it evaluates `bool& is_selected = selection[path_string]`,
and `std::map::operator[]` inserts a value-initialized `false` entry when the
key is absent.  Drawing a directory whose listing fails only shows an error
line and returns.  The alphabetical sort only permutes the visit order and is
not modelled. -/
def mapIndexDefault (st : Store) (q : Path) : Store :=
  match st q with
  | some _ => st
  | none => upd st q false

/-- The file pass of `DrawDirectoryTree`: `selection[path_string]` for every
file row (no click, so the value is only read). -/
def drawFilesPass (p : Path) : List (String × FSNode) → Store → Store
  | [], st => st
  | (nm, .file) :: rest, st => drawFilesPass p rest (mapIndexDefault st (p ++ [nm]))
  | (_, .badDir) :: rest, st => drawFilesPass p rest st
  | (_, .dir _) :: rest, st => drawFilesPass p rest st

mutual

/-- One click-free redraw of the tree rooted at the node `n` at path `p`. -/
def DrawDirectoryTree (p : Path) (n : FSNode) (s : Store × Cache) :
    Store × Cache :=
  match n with
  | .dir cs =>
      let s1 := drawDirsPass p cs s
      (drawFilesPass p cs s1.1, s1.2)
  | _ => s

/-- The directory pass of `DrawDirectoryTree`: resolve each subdirectory's
tri-state for its icon, then (tree node open) redraw its subtree. -/
def drawDirsPass (p : Path) (l : List (String × FSNode)) (s : Store × Cache) :
    Store × Cache :=
  match l with
  | [] => s
  | (_, .file) :: rest => drawDirsPass p rest s
  | (nm, .badDir) :: rest =>
      let ca1 := (CalculateAndCacheDirectoryState s.1 (p ++ [nm]) .badDir s.2).2
      let s2 := DrawDirectoryTree (p ++ [nm]) .badDir (s.1, ca1)
      drawDirsPass p rest s2
  | (nm, .dir cs) :: rest =>
      let ca1 := (CalculateAndCacheDirectoryState s.1 (p ++ [nm]) (.dir cs) s.2).2
      let s2 := DrawDirectoryTree (p ++ [nm]) (.dir cs) (s.1, ca1)
      drawDirsPass p rest s2

end

/-!
### `GenerateContext`

`std::map` iterates its entries in key order; the entry list below is that
iteration sequence.  `files q = some content` models "`q` currently resolves to
a readable regular file with these contents" (`fs::is_regular_file` plus a
successful `ifstream` open); `none` models a missing, non-regular or unreadable
path.  Contents are modelled as text; `content.length` is
`file_content.length()`. -/
def GenerateContext (files : String → Option String) :
    List (String × Bool) → String × Nat × Nat
  | [] => ("", 0, 0)
  | (p, b) :: rest =>
      let r := GenerateContext files rest
      match b, files p with
      | true, some content =>
          ("--- " ++ p ++ " ---\n" ++ content ++ "\n" ++ r.1,
            r.2.1 + 1, r.2.2 + content.length / 4)
      | true, none => r
      | false, _ => r

/-- The header-plus-body block `GenerateContext` appends for one kept path. -/
def contextBlock (files : String → Option String) (e : String × Bool) : String :=
  "--- " ++ e.1 ++ " ---\n" ++ ((files e.1).getD "") ++ "\n"

/-- The entries `GenerateContext` keeps: value `true` and currently a readable
regular file. -/
def keptEntries (files : String → Option String) (l : List (String × Bool)) :
    List (String × Bool) :=
  l.filter fun e => e.2 && (files e.1).isSome

/-!
### The cache-correctness invariant and subtree membership
-/

/-- The derived-structure invariant on the directory state cache: every key
present holds exactly the value a from-scratch recomputation over the live
filesystem and the current Store would produce. -/
def Coherent (fs : FSNode) (st : Store) (ca : Cache) : Prop :=
  ∀ p s, ca p = some s → ∃ n, findNode fs p = some n ∧ s = pureNode st p n

/-- `q` lies in the subtree rooted at the node `n` sitting at path `p`
(including `p` itself). -/
def InSubtree (p : Path) (n : FSNode) (q : Path) : Prop :=
  ∃ r, q = p ++ r ∧ (findNode n r).isSome

/-- `q` lies in the subtree of one of the child entries `l` of the directory at
path `p`. -/
def InSubtreeList (p : Path) (l : List (String × FSNode)) (q : Path) : Prop :=
  ∃ e ∈ l, InSubtree (p ++ [e.1]) e.2 q

/-- `st'` differs from `st` at most by freshly inserted default `false` entries:
every existing entry keeps its value, and every changed key went from absent to
`some false`.  This is the Store effect of a click-free redraw. -/
def StoreExtends (st st' : Store) : Prop :=
  (∀ q b, st q = some b → st' q = some b) ∧
  (∀ q, st' q ≠ st q → st q = none ∧ st' q = some false)

/-!
### Concrete fixtures used by the example theorems and witnesses
-/

/-- The empty Store. -/
def store0 : Store := fun _ => none

/-- The empty cache. -/
def cache0 : Cache := fun _ => none

/-- A directory with two files `a` and `b`. -/
def fsPartial : FSNode := .dir [("a", .file), ("b", .file)]

/-- `a` selected, `b` not: `fsPartial` resolves to `PartiallySelected`. -/
def stPartial : Store := upd store0 ["a"] true

/-- A Store holding `true` for the scan root itself (an empty directory's own
entry). -/
def stOwn : Store := upd store0 [] true

/-- A directory containing a single unlistable subdirectory `x`. -/
def fsBad : FSNode := .dir [("x", .badDir)]

/-- The children visited before the early exit in the `C6` example: the
subdirectory `d` (whose file `x` is selected) makes `found_selected` true, then
the unselected file `b` makes `found_unselected` true. -/
def visitedEx : List (String × FSNode) := [("d", .dir [("x", .file)]), ("b", .file)]

/-- The sibling never visited in the `C6` example. -/
def restEx : List (String × FSNode) := [("e", .dir [("y", .file)])]

/-- The `C6` example directory. -/
def fsEarly : FSNode := .dir (visitedEx ++ restEx)

/-- Selection for the `C6` example: only `d/x` is selected. -/
def stEarly : Store := upd store0 ["d", "x"] true

/-- Readable regular files for the aggregation example: `/a.txt` contains
`"hello"` (5 bytes), `/b.txt` exists but is not selected. -/
def exFiles : String → Option String := fun q =>
  if q = "/a.txt" then some "hello" else if q = "/b.txt" then some "bye" else none

/-!
## Theorems

First the auxiliary lemmas: map updates, association-list lookup, `findNode`
composition, and the erased-key characterization of `InvalidateParentCaches`.
-/

@[simp] theorem upd_apply {β : Type} (m : Path → Option β) (k q : Path) (v : β) :
    upd m k v q = if q = k then some v else m q := rfl

@[simp] theorem eraseKey_apply {β : Type} (m : Path → Option β) (k q : Path) :
    eraseKey m k q = if q = k then none else m q := rfl

theorem mem_of_lookup {cs : List (String × FSNode)} {nm : String} {c : FSNode}
    (h : cs.lookup nm = some c) : (nm, c) ∈ cs := by
  induction cs with
  | nil => cases h
  | cons e rest ih =>
      obtain ⟨n0, c0⟩ := e
      by_cases he : nm = n0
      · subst he
        simp [List.lookup] at h
        simp [h]
      · have hb : (nm == n0) = false := beq_eq_false_iff_ne.mpr he
        simp [List.lookup, hb] at h
        exact List.mem_cons_of_mem _ (ih h)

theorem lookup_eq_of_mem {cs : List (String × FSNode)}
    (hnd : (cs.map Prod.fst).Nodup) {nm : String} {c : FSNode}
    (h : (nm, c) ∈ cs) : cs.lookup nm = some c := by
  induction cs with
  | nil => cases h
  | cons e rest ih =>
      obtain ⟨n0, c0⟩ := e
      simp only [List.map_cons, List.nodup_cons] at hnd
      rcases List.mem_cons.mp h with h1 | h1
      · cases h1
        simp [List.lookup]
      · have hne : nm ≠ n0 := by
          intro heq
          subst heq
          exact hnd.1 (List.mem_map_of_mem Prod.fst h1)
        have hb : (nm == n0) = false := beq_eq_false_iff_ne.mpr hne
        simp [List.lookup, hb]
        exact ih hnd.2 h1

theorem findNode_append (n : FSNode) (l₁ l₂ : Path) :
    findNode n (l₁ ++ l₂) = (findNode n l₁).bind fun m => findNode m l₂ := by
  induction l₁ generalizing n with
  | nil => simp [findNode]
  | cons x xs ih =>
      cases n with
      | file => simp [findNode]
      | badDir => simp [findNode]
      | dir cs =>
          simp only [List.cons_append, findNode]
          cases cs.lookup x with
          | none => simp
          | some c => simp [ih]

theorem wf_findNode {fs : FSNode} (hwf : WFNode fs) {p : Path} {n : FSNode}
    (h : findNode fs p = some n) : WFNode n := by
  induction p generalizing fs with
  | nil =>
      simp [findNode] at h
      exact h ▸ hwf
  | cons x xs ih =>
      cases fs with
      | file => simp [findNode] at h
      | badDir => simp [findNode] at h
      | dir cs =>
          simp only [findNode] at h
          cases hl : cs.lookup x with
          | none => rw [hl] at h; cases h
          | some c =>
              rw [hl] at h
              cases hwf with
              | dir _ hnd hch => exact ih (hch _ (mem_of_lookup hl)) h

theorem findNode_child {fs : FSNode} {p : Path} {cs : List (String × FSNode)}
    (h : findNode fs p = some (.dir cs)) {nm : String} {c : FSNode}
    (hl : cs.lookup nm = some c) : findNode fs (p ++ [nm]) = some c := by
  rw [findNode_append, h]
  simp [findNode, hl]

theorem coherent_none (fs : FSNode) (st : Store) :
    Coherent fs st (fun _ => none) := by
  intro p s h
  cases h

theorem proper_prefix_iff_dropLast {q l : Path} (hl : l ≠ []) :
    (q <+: l ∧ q ≠ l) ↔ q <+: l.dropLast := by
  constructor
  · rintro ⟨hpre, hne⟩
    have hlt : q.length < l.length :=
      lt_of_le_of_ne hpre.length_le fun he => hne (hpre.eq_of_length he)
    rcases List.prefix_or_prefix_of_prefix hpre l.dropLast_prefix with h | h
    · exact h
    · have hlen : l.dropLast.length = q.length := by
        have h1 := h.length_le
        have h2 := List.length_dropLast l
        omega
      exact (h.eq_of_length hlen) ▸ List.prefix_refl q
  · intro h
    refine ⟨h.trans l.dropLast_prefix, fun he => ?_⟩
    subst he
    have h1 := h.length_le
    have h2 := List.length_dropLast q
    have h3 : 0 < q.length := List.length_pos.mpr hl
    omega

theorem InvalidateParentCaches_apply (p : Path) (ca : Cache) (q : Path) :
    InvalidateParentCaches p ca q = if q <+: p ∧ q ≠ p then none else ca q := by
  match p with
  | [] =>
      rw [InvalidateParentCaches]
      have hno : ¬(q <+: ([] : Path) ∧ q ≠ []) := by
        rintro ⟨h1, h2⟩
        exact h2 (List.prefix_nil.mp h1)
      rw [if_neg hno]
  | x :: xs =>
      rw [InvalidateParentCaches,
        InvalidateParentCaches_apply (x :: xs).dropLast _ q]
      have hiff := proper_prefix_iff_dropLast (q := q) (l := x :: xs) (by simp)
      by_cases hq : q <+: (x :: xs).dropLast
      · by_cases he : q = (x :: xs).dropLast
        · rw [if_neg (by tauto), if_pos (hiff.mpr hq)]
          simp [he]
        · rw [if_pos ⟨hq, he⟩, if_pos (hiff.mpr hq)]
      · rw [if_neg (by tauto), if_neg (by tauto)]
        have he : q ≠ (x :: xs).dropLast := fun h => hq (h ▸ List.prefix_refl q)
        simp [he]
termination_by p.length
decreasing_by simp [List.length_dropLast]

/-!
### The recomputed tri-state reads the Store only at proper descendants
-/

mutual

theorem pureNode_congr (st st' : Store) (p : Path) (n : FSNode)
    (h : ∀ r, p <+: r → p ≠ r → st r = st' r) :
    pureNode st p n = pureNode st' p n := by
  cases n with
  | file => rfl
  | badDir => rfl
  | dir cs =>
      simp only [pureNode]
      rw [pureChildren_congr st st' p cs h]

theorem pureChildren_congr (st st' : Store) (p : Path)
    (l : List (String × FSNode))
    (h : ∀ r, p <+: r → p ≠ r → st r = st' r) :
    pureChildren st p l = pureChildren st' p l := by
  cases l with
  | nil => rfl
  | cons e rest =>
      obtain ⟨nm, c⟩ := e
      have hsel : st (p ++ [nm]) = st' (p ++ [nm]) := by
        apply h _ (List.prefix_append p [nm])
        intro he
        have : p.length = (p ++ [nm]).length := by rw [← he]
        simp at this
      have hchild : ∀ r, (p ++ [nm]) <+: r → (p ++ [nm]) ≠ r → st r = st' r := by
        intro r h1 h2
        apply h r ((List.prefix_append p [nm]).trans h1)
        intro he
        subst he
        have := h1.length_le
        simp at this
      have htl := pureChildren_congr st st' p rest h
      cases c with
      | file => simp only [pureChildren, sel, hsel, htl]
      | badDir =>
          simp only [pureChildren, htl,
            pureNode_congr st st' (p ++ [nm]) .badDir hchild]
      | dir cs =>
          simp only [pureChildren, htl,
            pureNode_congr st st' (p ++ [nm]) (.dir cs) hchild]

end

/-!
### `CalculateAndCacheDirectoryState`: cache-correct resolution

On a coherent cache, `CalculateAndCacheDirectoryState` returns exactly the
cache-free recomputation, leaves the cache coherent, and caches its own result
— the post-order memoization of §4.2.
-/

mutual

theorem calc_correct (fs : FSNode) (st : Store) (p : Path) (n : FSNode)
    (hwf : WFNode n) (hfind : findNode fs p = some n)
    (ca : Cache) (hco : Coherent fs st ca) :
    (CalculateAndCacheDirectoryState st p n ca).1 = pureNode st p n ∧
    Coherent fs st (CalculateAndCacheDirectoryState st p n ca).2 ∧
    (CalculateAndCacheDirectoryState st p n ca).2 p
      = some (pureNode st p n) := by
  cases hca : ca p with
  | some s =>
      obtain ⟨n', hn', hval⟩ := hco p s hca
      rw [hfind] at hn'
      injection hn' with he
      subst he
      have hres : CalculateAndCacheDirectoryState st p n ca = (s, ca) := by
        unfold CalculateAndCacheDirectoryState
        rw [hca]
      rw [hres]
      refine ⟨hval, hco, ?_⟩
      show ca p = some (pureNode st p n)
      rw [hca, hval]
  | none =>
      cases n with
      | file =>
          have hres : CalculateAndCacheDirectoryState st p .file ca
              = (.NotSelected, upd ca p .NotSelected) := by
            rw [CalculateAndCacheDirectoryState.eq_def, hca]
          rw [hres]
          refine ⟨rfl, ?_, by simp [pureNode]⟩
          intro q s hq
          simp only [upd_apply] at hq
          by_cases hqp : q = p
          · rw [if_pos hqp] at hq
            injection hq with hs
            exact ⟨.file, hqp ▸ hfind, by simp [← hs, pureNode]⟩
          · rw [if_neg hqp] at hq
            exact hco q s hq
      | badDir =>
          have hres : CalculateAndCacheDirectoryState st p .badDir ca
              = (.NotSelected, upd ca p .NotSelected) := by
            rw [CalculateAndCacheDirectoryState.eq_def, hca]
          rw [hres]
          refine ⟨rfl, ?_, by simp [pureNode]⟩
          intro q s hq
          simp only [upd_apply] at hq
          by_cases hqp : q = p
          · rw [if_pos hqp] at hq
            injection hq with hs
            exact ⟨.badDir, hqp ▸ hfind, by simp [← hs, pureNode]⟩
          · rw [if_neg hqp] at hq
            exact hco q s hq
      | dir cs =>
          cases cs with
          | nil =>
              have hres : CalculateAndCacheDirectoryState st p (.dir []) ca
                  = (.NotSelected, upd ca p .NotSelected) := by
                rw [CalculateAndCacheDirectoryState.eq_def, hca]
              have hpure : pureNode st p (.dir []) = .NotSelected := by
                simp [pureNode, pureChildren, stateOfFlags]
              rw [hres, hpure]
              refine ⟨rfl, ?_, by simp⟩
              intro q s hq
              simp only [upd_apply] at hq
              by_cases hqp : q = p
              · rw [if_pos hqp] at hq
                injection hq with hs
                exact ⟨.dir [], hqp ▸ hfind, by rw [← hs, hqp, hpure]⟩
              · rw [if_neg hqp] at hq
                exact hco q s hq
          | cons c0 rest =>
              have hkeys : ∀ e ∈ c0 :: rest,
                  findNode fs (p ++ [e.1]) = some e.2 ∧ WFNode e.2 := by
                intro e he
                cases hwf with
                | dir _ hnd hch =>
                    obtain ⟨nm, c⟩ := e
                    exact ⟨findNode_child hfind (lookup_eq_of_mem hnd he),
                      hch _ he⟩
              have hcc := calcChildren_correct fs st p (c0 :: rest) hkeys
                false false ca hco
              have hres : CalculateAndCacheDirectoryState st p (.dir (c0 :: rest)) ca
                  = (stateOfFlags (calcChildren st p (c0 :: rest) false false ca).1
                      (calcChildren st p (c0 :: rest) false false ca).2.1,
                     upd (calcChildren st p (c0 :: rest) false false ca).2.2 p
                      (stateOfFlags (calcChildren st p (c0 :: rest) false false ca).1
                        (calcChildren st p (c0 :: rest) false false ca).2.1)) := by
                rw [CalculateAndCacheDirectoryState.eq_def, hca]
              have hpure : pureNode st p (.dir (c0 :: rest))
                  = stateOfFlags (pureChildren st p (c0 :: rest)).1
                      (pureChildren st p (c0 :: rest)).2 := by
                simp [pureNode]
              rw [hres, hcc.1, hcc.2.1, Bool.false_or, Bool.false_or, hpure]
              refine ⟨rfl, ?_, by simp⟩
              intro q s hq
              simp only [upd_apply] at hq
              by_cases hqp : q = p
              · rw [if_pos hqp] at hq
                injection hq with hs
                exact ⟨.dir (c0 :: rest), hqp ▸ hfind, by rw [← hs, hqp, hpure]⟩
              · rw [if_neg hqp] at hq
                exact hcc.2.2 q s hq

theorem calcChildren_correct (fs : FSNode) (st : Store) (p : Path)
    (l : List (String × FSNode))
    (hkeys : ∀ e ∈ l, findNode fs (p ++ [e.1]) = some e.2 ∧ WFNode e.2)
    (a b : Bool) (ca : Cache) (hco : Coherent fs st ca) :
    (calcChildren st p l a b ca).1 = (a || (pureChildren st p l).1) ∧
    (calcChildren st p l a b ca).2.1 = (b || (pureChildren st p l).2) ∧
    Coherent fs st (calcChildren st p l a b ca).2.2 := by
  cases l with
  | nil => simpa [calcChildren, pureChildren] using hco
  | cons e rest =>
      obtain ⟨nm, c⟩ := e
      have htlkeys : ∀ e ∈ rest,
          findNode fs (p ++ [e.1]) = some e.2 ∧ WFNode e.2 :=
        fun e he => hkeys e (List.mem_cons_of_mem _ he)
      by_cases hab : (a && b) = true
      · obtain ⟨ha, hb⟩ : a = true ∧ b = true := by simpa using hab
        subst ha
        subst hb
        cases c with
        | file => simpa [calcChildren] using hco
        | badDir => simpa [calcChildren] using hco
        | dir cs => simpa [calcChildren] using hco
      · have hab' : (a && b) = false := by simpa using hab
        cases c with
        | file =>
            have h1 := calcChildren_correct fs st p rest htlkeys
              (a || sel st (p ++ [nm])) (b || !sel st (p ++ [nm])) ca hco
            have hres : calcChildren st p ((nm, FSNode.file) :: rest) a b ca
                = calcChildren st p rest (a || sel st (p ++ [nm]))
                  (b || !sel st (p ++ [nm])) ca := by
              rw [calcChildren.eq_def, hab']
              simp
            rw [hres, h1.1, h1.2.1]
            refine ⟨?_, ?_, h1.2.2⟩
            · simp [pureChildren, Bool.or_assoc]
            · simp [pureChildren, Bool.or_assoc]
        | badDir =>
            have hhd := hkeys (nm, FSNode.badDir) (List.mem_cons_self _ _)
            have hchild := calc_correct fs st (p ++ [nm]) .badDir hhd.2 hhd.1
              ca hco
            have h1 := calcChildren_correct fs st p rest htlkeys
              (a || decide ((CalculateAndCacheDirectoryState st (p ++ [nm]) .badDir ca).1 ≠ .NotSelected))
              (b || decide ((CalculateAndCacheDirectoryState st (p ++ [nm]) .badDir ca).1 ≠ .FullySelected))
              (CalculateAndCacheDirectoryState st (p ++ [nm]) .badDir ca).2
              hchild.2.1
            have hres : calcChildren st p ((nm, FSNode.badDir) :: rest) a b ca
                = calcChildren st p rest
                  (a || decide ((CalculateAndCacheDirectoryState st (p ++ [nm]) .badDir ca).1 ≠ .NotSelected))
                  (b || decide ((CalculateAndCacheDirectoryState st (p ++ [nm]) .badDir ca).1 ≠ .FullySelected))
                  (CalculateAndCacheDirectoryState st (p ++ [nm]) .badDir ca).2 := by
              rw [calcChildren.eq_def, hab']
              simp
            rw [hres]
            refine ⟨?_, ?_, h1.2.2⟩
            · rw [h1.1, hchild.1]
              simp [pureChildren, Bool.or_assoc]
            · rw [h1.2.1, hchild.1]
              simp [pureChildren, Bool.or_assoc]
        | dir cs =>
            have hhd := hkeys (nm, FSNode.dir cs) (List.mem_cons_self _ _)
            have hchild := calc_correct fs st (p ++ [nm]) (.dir cs) hhd.2 hhd.1
              ca hco
            have h1 := calcChildren_correct fs st p rest htlkeys
              (a || decide ((CalculateAndCacheDirectoryState st (p ++ [nm]) (.dir cs) ca).1 ≠ .NotSelected))
              (b || decide ((CalculateAndCacheDirectoryState st (p ++ [nm]) (.dir cs) ca).1 ≠ .FullySelected))
              (CalculateAndCacheDirectoryState st (p ++ [nm]) (.dir cs) ca).2
              hchild.2.1
            have hres : calcChildren st p ((nm, FSNode.dir cs) :: rest) a b ca
                = calcChildren st p rest
                  (a || decide ((CalculateAndCacheDirectoryState st (p ++ [nm]) (.dir cs) ca).1 ≠ .NotSelected))
                  (b || decide ((CalculateAndCacheDirectoryState st (p ++ [nm]) (.dir cs) ca).1 ≠ .FullySelected))
                  (CalculateAndCacheDirectoryState st (p ++ [nm]) (.dir cs) ca).2 := by
              rw [calcChildren.eq_def, hab']
              simp
            rw [hres]
            refine ⟨?_, ?_, h1.2.2⟩
            · rw [h1.1, hchild.1]
              simp [pureChildren, Bool.or_assoc]
            · rw [h1.2.1, hchild.1]
              simp [pureChildren, Bool.or_assoc]

end

/-!
### `CalculateAndCacheDirectoryState` never removes or overwrites cache entries
-/

mutual

theorem calc_mono (st : Store) (p : Path) (n : FSNode) (ca : Cache) :
    ∀ q sv, ca q = some sv →
      (CalculateAndCacheDirectoryState st p n ca).2 q = some sv := by
  intro q sv hq
  cases hca : ca p with
  | some s0 =>
      have hres : CalculateAndCacheDirectoryState st p n ca = (s0, ca) := by
        rw [CalculateAndCacheDirectoryState.eq_def, hca]
      rw [hres]
      exact hq
  | none =>
      have hne : q ≠ p := by
        intro h
        rw [h, hca] at hq
        cases hq
      cases n with
      | file =>
          have hres : CalculateAndCacheDirectoryState st p .file ca
              = (.NotSelected, upd ca p .NotSelected) := by
            rw [CalculateAndCacheDirectoryState.eq_def, hca]
          rw [hres]
          show upd ca p .NotSelected q = some sv
          rw [upd_apply, if_neg hne]
          exact hq
      | badDir =>
          have hres : CalculateAndCacheDirectoryState st p .badDir ca
              = (.NotSelected, upd ca p .NotSelected) := by
            rw [CalculateAndCacheDirectoryState.eq_def, hca]
          rw [hres]
          show upd ca p .NotSelected q = some sv
          rw [upd_apply, if_neg hne]
          exact hq
      | dir cs =>
          cases cs with
          | nil =>
              have hres : CalculateAndCacheDirectoryState st p (.dir []) ca
                  = (.NotSelected, upd ca p .NotSelected) := by
                rw [CalculateAndCacheDirectoryState.eq_def, hca]
              rw [hres]
              show upd ca p .NotSelected q = some sv
              rw [upd_apply, if_neg hne]
              exact hq
          | cons c0 rest =>
              have hres : CalculateAndCacheDirectoryState st p (.dir (c0 :: rest)) ca
                  = (stateOfFlags (calcChildren st p (c0 :: rest) false false ca).1
                      (calcChildren st p (c0 :: rest) false false ca).2.1,
                     upd (calcChildren st p (c0 :: rest) false false ca).2.2 p
                      (stateOfFlags (calcChildren st p (c0 :: rest) false false ca).1
                        (calcChildren st p (c0 :: rest) false false ca).2.1)) := by
                rw [CalculateAndCacheDirectoryState.eq_def, hca]
              rw [hres]
              show upd (calcChildren st p (c0 :: rest) false false ca).2.2 p _ q = some sv
              rw [upd_apply, if_neg hne]
              exact calcChildren_mono st p (c0 :: rest) false false ca q sv hq
termination_by sizeOf n

theorem calcChildren_mono (st : Store) (p : Path) (l : List (String × FSNode))
    (a b : Bool) (ca : Cache) :
    ∀ q sv, ca q = some sv → (calcChildren st p l a b ca).2.2 q = some sv := by
  intro q sv hq
  cases l with
  | nil => simpa [calcChildren] using hq
  | cons e rest =>
      obtain ⟨nm, c⟩ := e
      by_cases hab : (a && b) = true
      · obtain ⟨ha, hb⟩ : a = true ∧ b = true := by simpa using hab
        subst ha
        subst hb
        cases c with
        | file => simpa [calcChildren] using hq
        | badDir => simpa [calcChildren] using hq
        | dir cs => simpa [calcChildren] using hq
      · have hab2 : (a && b) = false := by simpa using hab
        cases c with
        | file =>
            have hres : calcChildren st p ((nm, FSNode.file) :: rest) a b ca
                = calcChildren st p rest (a || sel st (p ++ [nm]))
                  (b || !sel st (p ++ [nm])) ca := by
              rw [calcChildren.eq_def, hab2]
              simp
            rw [hres]
            exact calcChildren_mono st p rest _ _ ca q sv hq
        | badDir =>
            have hres : calcChildren st p ((nm, FSNode.badDir) :: rest) a b ca
                = calcChildren st p rest
                  (a || decide ((CalculateAndCacheDirectoryState st (p ++ [nm]) .badDir ca).1 ≠ .NotSelected))
                  (b || decide ((CalculateAndCacheDirectoryState st (p ++ [nm]) .badDir ca).1 ≠ .FullySelected))
                  (CalculateAndCacheDirectoryState st (p ++ [nm]) .badDir ca).2 := by
              rw [calcChildren.eq_def, hab2]
              simp
            rw [hres]
            have hc := calc_mono st (p ++ [nm]) .badDir ca q sv hq
            exact calcChildren_mono st p rest _ _ _ q sv hc
        | dir cs =>
            have hres : calcChildren st p ((nm, FSNode.dir cs) :: rest) a b ca
                = calcChildren st p rest
                  (a || decide ((CalculateAndCacheDirectoryState st (p ++ [nm]) (.dir cs) ca).1 ≠ .NotSelected))
                  (b || decide ((CalculateAndCacheDirectoryState st (p ++ [nm]) (.dir cs) ca).1 ≠ .FullySelected))
                  (CalculateAndCacheDirectoryState st (p ++ [nm]) (.dir cs) ca).2 := by
              rw [calcChildren.eq_def, hab2]
              simp
            rw [hres]
            have hc := calc_mono st (p ++ [nm]) (.dir cs) ca q sv hq
            exact calcChildren_mono st p rest _ _ _ q sv hc
termination_by sizeOf l

end

/-!
### Subtree membership lemmas and the effect of `SetSelectionRecursively`
-/

theorem inSubtree_self (p : Path) (n : FSNode) : InSubtree p n p :=
  ⟨[], by simp, by simp [findNode]⟩

theorem inSubtree_prefix {p : Path} {n : FSNode} {q : Path}
    (h : InSubtree p n q) : p <+: q := by
  obtain ⟨r, rfl, _⟩ := h
  exact List.prefix_append p r

theorem inSubtree_between {p : Path} {n : FSNode} {q p₂ : Path}
    (h : InSubtree p n q) (h1 : p <+: p₂) (h2 : p₂ <+: q) :
    InSubtree p n p₂ := by
  obtain ⟨r, rfl, hr⟩ := h
  obtain ⟨r₂, rfl⟩ := h1
  obtain ⟨t, ht⟩ := (List.prefix_append_right_inj p).mp h2
  refine ⟨r₂, rfl, ?_⟩
  rw [← ht, findNode_append] at hr
  cases hfr : findNode n r₂ with
  | none => rw [hfr] at hr; simp at hr
  | some m => simp

theorem inSubtree_dir_iff {p : Path} {cs : List (String × FSNode)} {q : Path}
    (hnd : (cs.map Prod.fst).Nodup) :
    InSubtree p (.dir cs) q ↔ q = p ∨ InSubtreeList p cs q := by
  constructor
  · rintro ⟨r, rfl, hr⟩
    cases r with
    | nil => exact Or.inl (by simp)
    | cons x r2 =>
        simp only [findNode] at hr
        cases hl : cs.lookup x with
        | none => rw [hl] at hr; simp at hr
        | some c =>
            rw [hl] at hr
            refine Or.inr ⟨(x, c), mem_of_lookup hl, r2, ?_, hr⟩
            simp
  · rintro (hqp | ⟨⟨nm, c⟩, hmem, r2, rfl, hr⟩)
    · rw [hqp]
      exact inSubtree_self _ (.dir cs)
    · refine ⟨nm :: r2, by simp, ?_⟩
      simp only [findNode, lookup_eq_of_mem hnd hmem]
      exact hr

mutual

theorem setRec_effect (v : Bool) (p : Path) (n : FSNode) (hwf : WFNode n)
    (st : Store) (ca : Cache) (st2 : Store) (ca2 : Cache)
    (h : SetSelectionRecursively v p n st ca = .ok (st2, ca2)) :
    ∀ q, (InSubtree p n q → st2 q = some v ∧ ca2 q = none) ∧
      (¬InSubtree p n q → st2 q = st q ∧ ca2 q = ca q) := by
  intro q
  cases n with
  | file =>
      simp only [SetSelectionRecursively, Except.ok.injEq, Prod.mk.injEq] at h
      obtain ⟨h1, h2⟩ := h
      subst h1
      subst h2
      constructor
      · rintro ⟨r, rfl, hr⟩
        cases r with
        | nil => simp
        | cons x r2 => simp [findNode] at hr
      · intro hq
        have hne : q ≠ p := fun he => hq (he ▸ inSubtree_self p .file)
        simp [hne]
  | badDir => simp [SetSelectionRecursively] at h
  | dir cs =>
      simp only [SetSelectionRecursively] at h
      cases hwf with
      | dir _ hnd hch =>
          have heff := setRecChildren_effect v p cs hch (upd st p v)
            (eraseKey ca p) st2 ca2 h
          constructor
          · intro hq
            rcases (inSubtree_dir_iff hnd).mp hq with hqp | hql
            · by_cases hql2 : InSubtreeList p cs q
              · exact (heff q).1 hql2
              · have h2 := (heff q).2 hql2
                rw [h2.1, h2.2, hqp]
                simp
            · exact (heff q).1 hql
          · intro hq
            have hne : q ≠ p := fun he => hq (he ▸ inSubtree_self p (.dir cs))
            have hql : ¬InSubtreeList p cs q :=
              fun hl => hq ((inSubtree_dir_iff hnd).mpr (Or.inr hl))
            have h2 := (heff q).2 hql
            rw [h2.1, h2.2]
            simp [hne]
termination_by structural n

theorem setRecChildren_effect (v : Bool) (p : Path)
    (l : List (String × FSNode)) (hwfl : ∀ e ∈ l, WFNode e.2)
    (st : Store) (ca : Cache) (st2 : Store) (ca2 : Cache)
    (h : setRecChildren v p l st ca = .ok (st2, ca2)) :
    ∀ q, (InSubtreeList p l q → st2 q = some v ∧ ca2 q = none) ∧
      (¬InSubtreeList p l q → st2 q = st q ∧ ca2 q = ca q) := by
  intro q
  cases l with
  | nil =>
      simp only [setRecChildren, Except.ok.injEq, Prod.mk.injEq] at h
      obtain ⟨h1, h2⟩ := h
      subst h1
      subst h2
      constructor
      · rintro ⟨e, he, _⟩
        simp at he
      · intro _
        exact ⟨rfl, rfl⟩
  | cons e rest =>
      obtain ⟨nm, c⟩ := e
      rw [setRecChildren.eq_def] at h
      dsimp only at h
      cases hhd : SetSelectionRecursively v (p ++ [nm]) c st ca with
      | error e0 =>
          rw [hhd] at h
          simp [Except.bind] at h
      | ok s1 =>
          rw [hhd] at h
          simp only [Except.bind] at h
          have hhe := setRec_effect v (p ++ [nm]) c
            (hwfl (nm, c) (List.mem_cons_self _ _)) st ca s1.1 s1.2
            (by rw [hhd])
          have hre := setRecChildren_effect v p rest
            (fun e he => hwfl e (List.mem_cons_of_mem _ he)) s1.1 s1.2
            st2 ca2 h
          constructor
          · intro hq
            by_cases hrest : InSubtreeList p rest q
            · exact (hre q).1 hrest
            · have h2 := (hre q).2 hrest
              rcases hq with ⟨e, he, hsub⟩
              rcases List.mem_cons.mp he with rfl | hin
              · have h3 := (hhe q).1 hsub
                rw [h2.1, h2.2]
                exact h3
              · exact absurd ⟨e, hin, hsub⟩ hrest
          · intro hq
            have hrest : ¬InSubtreeList p rest q :=
              fun ⟨e, he, hsub⟩ => hq ⟨e, List.mem_cons_of_mem _ he, hsub⟩
            have hhd2 : ¬InSubtree (p ++ [nm]) c q :=
              fun hsub => hq ⟨(nm, c), List.mem_cons_self _ _, hsub⟩
            have h2 := (hre q).2 hrest
            have h3 := (hhe q).2 hhd2
            rw [h2.1, h2.2, h3.1, h3.2]
            exact ⟨rfl, rfl⟩
termination_by structural l

end

/-!
### Coherence is preserved by every UI operation
-/

theorem coherent_toggleFile (fs : FSNode) (st : Store) (ca : Cache)
    (hco : Coherent fs st ca) (f : Path) (b : Bool) :
    Coherent fs (upd st f b) (InvalidateParentCaches f ca) := by
  intro q s hq
  rw [InvalidateParentCaches_apply] at hq
  by_cases hcond : q <+: f ∧ q ≠ f
  · rw [if_pos hcond] at hq
    cases hq
  · rw [if_neg hcond] at hq
    obtain ⟨n, hn, hval⟩ := hco q s hq
    refine ⟨n, hn, ?_⟩
    rw [hval]
    apply pureNode_congr
    intro r h1 h2
    by_cases hrf : r = f
    · subst hrf
      exact absurd ⟨h1, h2⟩ hcond
    · simp [hrf]

theorem coherent_setRec (fs : FSNode) (st : Store) (ca : Cache)
    (hco : Coherent fs st ca) (p : Path) (n : FSNode) (hwf : WFNode n)
    (v : Bool) (st2 : Store) (ca2 : Cache)
    (h : SetSelectionRecursively v p n st ca = .ok (st2, ca2)) :
    Coherent fs st2 (InvalidateParentCaches p ca2) := by
  have heff := setRec_effect v p n hwf st ca st2 ca2 h
  intro q s hq
  rw [InvalidateParentCaches_apply] at hq
  by_cases hcond : q <+: p ∧ q ≠ p
  · rw [if_pos hcond] at hq
    cases hq
  · rw [if_neg hcond] at hq
    by_cases hsub : InSubtree p n q
    · have hnone := ((heff q).1 hsub).2
      rw [hnone] at hq
      cases hq
    · have h2 := (heff q).2 hsub
      rw [h2.2] at hq
      obtain ⟨m, hm, hval⟩ := hco q s hq
      refine ⟨m, hm, ?_⟩
      rw [hval]
      apply pureNode_congr
      intro r h1 h2r
      by_cases hrsub : InSubtree p n r
      · exfalso
        have hpr : p <+: r := inSubtree_prefix hrsub
        rcases List.prefix_or_prefix_of_prefix h1 hpr with hqp | hpq
        · by_cases hne : q = p
          · rw [hne] at hsub
            exact hsub (inSubtree_self p n)
          · exact hcond ⟨hqp, hne⟩
        · exact hsub (inSubtree_between hrsub hpq h1)
      · exact ((heff r).2 hrsub).1.symm

theorem coherent_applyOp (fs : FSNode) (hwf : WFNode fs) (op : Op)
    (s s2 : Store × Cache) (hco : Coherent fs s.1 s.2)
    (h : applyOp fs op s = some s2) : Coherent fs s2.1 s2.2 := by
  cases op with
  | resolveDir p =>
      simp only [applyOp] at h
      cases hf : findNode fs p with
      | none => rw [hf] at h; cases h
      | some n =>
          rw [hf] at h
          injection h with h
          subst h
          exact (calc_correct fs s.1 p n (wf_findNode hwf hf) hf s.2 hco).2.1
  | toggleFile p =>
      simp only [applyOp] at h
      cases hf : findNode fs p with
      | none => rw [hf] at h; cases h
      | some n =>
          rw [hf] at h
          cases n with
          | file =>
              injection h with h
              subst h
              exact coherent_toggleFile fs s.1 s.2 hco p _
          | badDir => cases h
          | dir cs => cases h
  | setRecursive p v =>
      simp only [applyOp] at h
      cases hf : findNode fs p with
      | none => rw [hf] at h; cases h
      | some n =>
          rw [hf] at h
          dsimp only at h
          cases hsr : SetSelectionRecursively v p n s.1 s.2 with
          | error e => rw [hsr] at h; cases h
          | ok s1 =>
              rw [hsr] at h
              injection h with h
              subst h
              exact coherent_setRec fs s.1 s.2 hco p n (wf_findNode hwf hf)
                v s1.1 s1.2 hsr
  | clickDir p =>
      simp only [applyOp] at h
      cases hf : findNode fs p with
      | none => rw [hf] at h; cases h
      | some n =>
          rw [hf] at h
          dsimp only at h
          have hcalc := calc_correct fs s.1 p n (wf_findNode hwf hf) hf s.2 hco
          cases hsr : SetSelectionRecursively
              ((CalculateAndCacheDirectoryState s.1 p n s.2).1 == .NotSelected)
              p n s.1 (CalculateAndCacheDirectoryState s.1 p n s.2).2 with
          | error e => rw [hsr] at h; cases h
          | ok s1 =>
              rw [hsr] at h
              injection h with h
              subst h
              exact coherent_setRec fs s.1 _ hcalc.2.1 p n (wf_findNode hwf hf)
                _ s1.1 s1.2 hsr
  | clearAll =>
      simp only [applyOp] at h
      injection h with h
      subst h
      intro q s hq
      cases hq

theorem coherent_applyOps (fs : FSNode) (hwf : WFNode fs) (ops : List Op) :
    ∀ s s2, Coherent fs s.1 s.2 → applyOps fs ops s = some s2 →
      Coherent fs s2.1 s2.2 := by
  induction ops with
  | nil =>
      intro s s2 hco h
      simp only [applyOps] at h
      injection h with h
      subst h
      exact hco
  | cons op rest ih =>
      intro s s2 hco h
      simp only [applyOps] at h
      cases hop : applyOp fs op s with
      | none => rw [hop] at h; cases h
      | some s1 =>
          rw [hop] at h
          exact ih s1 s2 (coherent_applyOp fs hwf op s s1 hco hop) h

/-!
### A click-free redraw only inserts default `false` Store entries
-/

theorem storeExtends_refl (st : Store) : StoreExtends st st :=
  ⟨fun _ _ h => h, fun _ h => absurd rfl h⟩

theorem storeExtends_trans {st st1 st2 : Store} (h1 : StoreExtends st st1)
    (h2 : StoreExtends st1 st2) : StoreExtends st st2 := by
  refine ⟨fun q b hq => h2.1 q b (h1.1 q b hq), fun q hne => ?_⟩
  by_cases hm : st1 q = st q
  · have hne1 : st2 q ≠ st1 q := fun he => hne (he.trans hm)
    have h3 := h2.2 q hne1
    exact ⟨hm ▸ h3.1, h3.2⟩
  · have h3 := h1.2 q hm
    exact ⟨h3.1, h2.1 q false h3.2⟩

theorem storeExtends_mapIndexDefault (st : Store) (k : Path) :
    StoreExtends st (mapIndexDefault st k) := by
  unfold mapIndexDefault
  cases hk : st k with
  | some b => exact storeExtends_refl st
  | none =>
      constructor
      · intro q b hq
        have hne : q ≠ k := fun he => by rw [he, hk] at hq; cases hq
        simp [hne, hq]
      · intro q hne
        by_cases hqk : q = k
        · subst hqk
          exact ⟨hk, by simp⟩
        · simp [hqk] at hne

theorem storeExtends_drawFilesPass (p : Path) (l : List (String × FSNode)) :
    ∀ st, StoreExtends st (drawFilesPass p l st) := by
  induction l with
  | nil => exact fun st => storeExtends_refl st
  | cons e rest ih =>
      intro st
      obtain ⟨nm, c⟩ := e
      cases c with
      | file =>
          exact storeExtends_trans
            (storeExtends_mapIndexDefault st (p ++ [nm])) (ih _)
      | badDir => exact ih st
      | dir cs => exact ih st

mutual

theorem storeExtends_draw (p : Path) (n : FSNode) (s : Store × Cache) :
    StoreExtends s.1 (DrawDirectoryTree p n s).1 := by
  cases n with
  | file => exact storeExtends_refl s.1
  | badDir => exact storeExtends_refl s.1
  | dir cs =>
      have h1 := storeExtends_drawDirs p cs s
      have h2 := storeExtends_drawFilesPass p cs (drawDirsPass p cs s).1
      exact storeExtends_trans h1 h2
termination_by structural n

theorem storeExtends_drawDirs (p : Path) (l : List (String × FSNode))
    (s : Store × Cache) : StoreExtends s.1 (drawDirsPass p l s).1 := by
  cases l with
  | nil => exact storeExtends_refl s.1
  | cons e rest =>
      obtain ⟨nm, c⟩ := e
      cases c with
      | file => exact storeExtends_drawDirs p rest s
      | badDir =>
          have h1 := storeExtends_draw (p ++ [nm]) FSNode.badDir
            (s.1, (CalculateAndCacheDirectoryState s.1 (p ++ [nm]) .badDir s.2).2)
          have h2 := storeExtends_drawDirs p rest
            (DrawDirectoryTree (p ++ [nm]) FSNode.badDir
              (s.1, (CalculateAndCacheDirectoryState s.1 (p ++ [nm]) .badDir s.2).2))
          exact storeExtends_trans h1 h2
      | dir cs =>
          have h1 := storeExtends_draw (p ++ [nm]) (FSNode.dir cs)
            (s.1, (CalculateAndCacheDirectoryState s.1 (p ++ [nm]) (.dir cs) s.2).2)
          have h2 := storeExtends_drawDirs p rest
            (DrawDirectoryTree (p ++ [nm]) (FSNode.dir cs)
              (s.1, (CalculateAndCacheDirectoryState s.1 (p ++ [nm]) (.dir cs) s.2).2))
          exact storeExtends_trans h1 h2
termination_by structural l

end

/-!
### The early exit loses no information and visited subdirectories stay cached
-/

theorem pureChildren_append (st : Store) (p : Path)
    (l1 l2 : List (String × FSNode)) :
    pureChildren st p (l1 ++ l2)
      = ((pureChildren st p l1).1 || (pureChildren st p l2).1,
         (pureChildren st p l1).2 || (pureChildren st p l2).2) := by
  induction l1 with
  | nil => simp [pureChildren]
  | cons e rest ih =>
      obtain ⟨nm, c⟩ := e
      cases c with
      | file => simp [pureChildren, ih, Bool.or_assoc]
      | badDir => simp [pureChildren, ih, Bool.or_assoc]
      | dir cs => simp [pureChildren, ih, Bool.or_assoc]

theorem calcChildren_caches_visited (fs : FSNode) (st : Store) (p : Path)
    (visited : List (String × FSNode)) :
    ∀ (rest : List (String × FSNode)) (a b : Bool) (ca : Cache),
    (∀ e ∈ visited ++ rest, findNode fs (p ++ [e.1]) = some e.2 ∧ WFNode e.2) →
    Coherent fs st ca →
    (∀ k, k < visited.length →
      ((a || (pureChildren st p (visited.take k)).1)
        && (b || (pureChildren st p (visited.take k)).2)) = false) →
    ∀ e ∈ visited, e.2 ≠ FSNode.file →
      (calcChildren st p (visited ++ rest) a b ca).2.2 (p ++ [e.1])
        = some (pureNode st (p ++ [e.1]) e.2) := by
  induction visited with
  | nil =>
      intro rest a b ca _ _ _ e he
      exact absurd he (List.not_mem_nil e)
  | cons hd vis ih =>
      intro rest a b ca hkeys hco hmin e he hne
      obtain ⟨nm, c⟩ := hd
      have hab : (a && b) = false := by
        have h0 := hmin 0 (by simp)
        simpa [pureChildren] using h0
      have hkeystl : ∀ e2 ∈ vis ++ rest,
          findNode fs (p ++ [e2.1]) = some e2.2 ∧ WFNode e2.2 := by
        intro e2 he2
        apply hkeys
        rw [List.cons_append]
        exact List.mem_cons_of_mem _ he2
      have hkeyhd := hkeys (nm, c) (by rw [List.cons_append]; exact List.mem_cons_self _ _)
      rw [List.cons_append]
      cases c with
      | file =>
          have hres : calcChildren st p ((nm, FSNode.file) :: (vis ++ rest)) a b ca
              = calcChildren st p (vis ++ rest) (a || sel st (p ++ [nm]))
                (b || !sel st (p ++ [nm])) ca := by
            rw [calcChildren.eq_def, hab]
            simp
          rw [hres]
          have hmin2 : ∀ k, k < vis.length →
              (((a || sel st (p ++ [nm])) || (pureChildren st p (vis.take k)).1)
                && ((b || !sel st (p ++ [nm])) || (pureChildren st p (vis.take k)).2)) = false := by
            intro k hk
            have hh := hmin (k + 1) (by simp; omega)
            simpa [List.take_succ_cons, pureChildren, Bool.or_assoc] using hh
          rcases List.mem_cons.mp he with heq | hin
          · rw [heq] at hne
            exact absurd rfl hne
          · exact ih rest _ _ ca hkeystl hco hmin2 e hin hne
      | badDir =>
          have hchild := calc_correct fs st (p ++ [nm]) .badDir hkeyhd.2 hkeyhd.1 ca hco
          have hres : calcChildren st p ((nm, FSNode.badDir) :: (vis ++ rest)) a b ca
              = calcChildren st p (vis ++ rest)
                (a || decide ((CalculateAndCacheDirectoryState st (p ++ [nm]) .badDir ca).1 ≠ .NotSelected))
                (b || decide ((CalculateAndCacheDirectoryState st (p ++ [nm]) .badDir ca).1 ≠ .FullySelected))
                (CalculateAndCacheDirectoryState st (p ++ [nm]) .badDir ca).2 := by
            rw [calcChildren.eq_def, hab]
            simp
          rw [hres]
          rcases List.mem_cons.mp he with heq | hin
          · subst heq
            exact calcChildren_mono st p (vis ++ rest) _ _ _ _ _ hchild.2.2
          · have hmin2 : ∀ k, k < vis.length →
                (((a || decide ((CalculateAndCacheDirectoryState st (p ++ [nm]) .badDir ca).1 ≠ .NotSelected))
                    || (pureChildren st p (vis.take k)).1)
                  && ((b || decide ((CalculateAndCacheDirectoryState st (p ++ [nm]) .badDir ca).1 ≠ .FullySelected))
                    || (pureChildren st p (vis.take k)).2)) = false := by
              intro k hk
              have hh := hmin (k + 1) (by simp; omega)
              rw [hchild.1]
              simpa [List.take_succ_cons, pureChildren, Bool.or_assoc] using hh
            exact ih rest _ _ _ hkeystl hchild.2.1 hmin2 e hin hne
      | dir cs =>
          have hchild := calc_correct fs st (p ++ [nm]) (.dir cs) hkeyhd.2 hkeyhd.1 ca hco
          have hres : calcChildren st p ((nm, FSNode.dir cs) :: (vis ++ rest)) a b ca
              = calcChildren st p (vis ++ rest)
                (a || decide ((CalculateAndCacheDirectoryState st (p ++ [nm]) (.dir cs) ca).1 ≠ .NotSelected))
                (b || decide ((CalculateAndCacheDirectoryState st (p ++ [nm]) (.dir cs) ca).1 ≠ .FullySelected))
                (CalculateAndCacheDirectoryState st (p ++ [nm]) (.dir cs) ca).2 := by
            rw [calcChildren.eq_def, hab]
            simp
          rw [hres]
          rcases List.mem_cons.mp he with heq | hin
          · subst heq
            exact calcChildren_mono st p (vis ++ rest) _ _ _ _ _ hchild.2.2
          · have hmin2 : ∀ k, k < vis.length →
                (((a || decide ((CalculateAndCacheDirectoryState st (p ++ [nm]) (.dir cs) ca).1 ≠ .NotSelected))
                    || (pureChildren st p (vis.take k)).1)
                  && ((b || decide ((CalculateAndCacheDirectoryState st (p ++ [nm]) (.dir cs) ca).1 ≠ .FullySelected))
                    || (pureChildren st p (vis.take k)).2)) = false := by
              intro k hk
              have hh := hmin (k + 1) (by simp; omega)
              rw [hchild.1]
              simpa [List.take_succ_cons, pureChildren, Bool.or_assoc] using hh
            exact ih rest _ _ _ hkeystl hchild.2.1 hmin2 e hin hne

/-!
### Remaining helper lemmas
-/

theorem calc_dir_cache (st : Store) (p : Path) (l : List (String × FSNode))
    (hl : l ≠ []) (ca : Cache) (hmiss : ca p = none) :
    CalculateAndCacheDirectoryState st p (.dir l) ca
      = (stateOfFlags (calcChildren st p l false false ca).1
          (calcChildren st p l false false ca).2.1,
         upd (calcChildren st p l false false ca).2.2 p
          (stateOfFlags (calcChildren st p l false false ca).1
            (calcChildren st p l false false ca).2.1)) := by
  cases l with
  | nil => exact absurd rfl hl
  | cons c0 cs => rw [CalculateAndCacheDirectoryState.eq_def, hmiss]

theorem invalidateFuel_absolute (fuel : Nat) :
    ∀ pth : CppPath, pth.absolute = true →
      ∀ ca, InvalidateParentCachesFuel fuel pth ca = none := by
  induction fuel with
  | zero =>
      intro pth _ ca
      rfl
  | succ k ih =>
      intro pth habs ca
      have hpar : pth.parentPath.absolute = true := by
        unfold CppPath.parentPath
        split <;> simp [habs]
      have hguard : pth.loopGuard = true := by
        simp [CppPath.loopGuard, CppPath.isEmptyPath, hpar]
      rw [InvalidateParentCachesFuel, if_pos hguard]
      exact ih _ hpar _

theorem generate_spec (files : String → Option String)
    (l : List (String × Bool)) :
    GenerateContext files l
      = (((keptEntries files l).map (contextBlock files)).foldr (· ++ ·) "",
         (keptEntries files l).length,
         ((keptEntries files l).map
            (fun e => ((files e.1).getD "").length / 4)).sum) := by
  induction l with
  | nil => rfl
  | cons e rest ih =>
      obtain ⟨pe, be⟩ := e
      rw [GenerateContext.eq_def]
      dsimp only
      cases be with
      | false => simpa [keptEntries, List.filter_cons] using ih
      | true =>
          cases hf : files pe with
          | none => simpa [keptEntries, List.filter_cons, hf] using ih
          | some content =>
              simp only [keptEntries, List.filter_cons, hf, Option.isSome_some,
                Bool.true_and, Bool.and_true, if_pos]
              rw [ih]
              simp [keptEntries, contextBlock, hf]
              omega

/-!
## The claims
-/

/-- C1: the spec states that clicking a directory icon reads the tri-state via
resolve and applies `setRecursive(path, false)` only when the state is
`FullySelected`, and `setRecursive(path, true)` both for `NotSelected` and for
`Partial`, so that from `Partial` the first click forces `FullySelected`.  The
code (main.cpp line 285) instead computes
`new_selection_state = (state == SelectionState::NotSelected)`, which is
`false` for `Partial` — contradicting the comment directly above it ("a
partial or unselected folder becomes fully selected").  Evaluated on a
directory with one selected and one unselected file (tri-state `Partial`), the
click passes `false` to `SetSelectionRecursively` and the post-click
recomputation of the directory yields `NotSelected`, not `FullySelected`. -/
theorem c1_partial_click_deselects :
    (CalculateAndCacheDirectoryState stPartial [] fsPartial cache0).1
      = SelectionState.PartiallySelected ∧
    ((CalculateAndCacheDirectoryState stPartial [] fsPartial cache0).1
      == SelectionState.NotSelected) = false ∧
    (applyOp fsPartial (.clickDir []) (stPartial, cache0)).map
      (fun s => pureNode s.1 [] fsPartial) = some SelectionState.NotSelected := by
  exact ⟨by decide, by decide, by decide⟩

/-- C2 counterexample: an empty directory whose own Store entry is `true`
resolves — through the caching `CalculateAndCacheDirectoryState`, the function
the UI actually calls — to `NotSelected`, not `FullySelected` as the claim
states: the empty-directory base case (main.cpp lines 189-193) caches
`NotSelected` without consulting the Store. -/
theorem c2_counterexample :
    stOwn [] = some true ∧
    (CalculateAndCacheDirectoryState stOwn [] (.dir []) cache0).1
      ≠ SelectionState.FullySelected ∧
    (CalculateAndCacheDirectoryState stOwn [] (.dir []) cache0).1
      = SelectionState.NotSelected := by
  exact ⟨by decide, by decide, by decide⟩

/-- C2 (amended): the caching resolve maps every empty directory to
`NotSelected` — and caches that — regardless of the directory's own Store
entry; the own-entry fallback (`FullySelected` iff `Store[E] = true`) exists
only in the non-caching helper `GetDirectorySelectionState` (main.cpp lines
82-85), which the UI never calls; and no directory's own Store entry
influences the recomputed tri-state of any node (in particular of any
non-empty directory). -/
theorem c2_empty_dir_own_entry (st : Store) (p : Path) (ca : Cache) (b : Bool)
    (hmiss : ca p = none) :
    CalculateAndCacheDirectoryState st p (.dir []) ca
      = (.NotSelected, upd ca p .NotSelected) ∧
    GetDirectorySelectionState st p (some (.dir []))
      = (if sel st p then .FullySelected else .NotSelected) ∧
    ∀ n : FSNode, pureNode (upd st p b) p n = pureNode st p n := by
  refine ⟨by rw [CalculateAndCacheDirectoryState.eq_def, hmiss], rfl, ?_⟩
  intro n
  apply pureNode_congr
  intro r h1 h2
  have hrp : r ≠ p := fun he => h2 he.symm
  simp [hrp]

/-- C2 witness: the amended statement evaluated at the concrete empty
directory with its own Store entry set to `true`. -/
theorem c2_witness :
    cache0 [] = none ∧
    (CalculateAndCacheDirectoryState stOwn [] (.dir []) cache0
        = (.NotSelected, upd cache0 [] .NotSelected) ∧
      GetDirectorySelectionState stOwn [] (some (.dir []))
        = (if sel stOwn [] then .FullySelected else .NotSelected) ∧
      ∀ n : FSNode, pureNode (upd stOwn [] true) [] n = pureNode stOwn [] n) :=
  ⟨rfl, c2_empty_dir_own_entry stOwn [] cache0 true rfl⟩

/-- C3: after every finite sequence of UI operations (read-only resolves, file
toggles, recursive sets, directory-icon clicks, cache clears) that completes,
every key present in the directory state cache maps to exactly the tri-state a
from-scratch recursive recomputation over the filesystem and the current Store
produces, and resolving any directory returns that from-scratch value. -/
theorem c3_cache_coherent_after_ops (fs : FSNode) (ops : List Op)
    (st st2 : Store) (ca ca2 : Cache) (hwf : WFNode fs)
    (hco : Coherent fs st ca)
    (h : applyOps fs ops (st, ca) = some (st2, ca2)) :
    Coherent fs st2 ca2 ∧
    ∀ p n, findNode fs p = some n →
      (CalculateAndCacheDirectoryState st2 p n ca2).1 = pureNode st2 p n := by
  have hcoh := coherent_applyOps fs hwf ops (st, ca) (st2, ca2) hco h
  exact ⟨hcoh,
    fun p n hf => (calc_correct fs st2 p n (wf_findNode hwf hf) hf ca2 hcoh).1⟩

/-- C3 witness: a concrete session — resolve the root, toggle file `b`, click
the root's icon — leaves the cache coherent. -/
theorem c3_witness :
    WFNode fsPartial ∧
    Coherent fsPartial stPartial cache0 ∧
    Coherent fsPartial
      ((applyOps fsPartial [Op.resolveDir [], Op.toggleFile ["b"], Op.clickDir []]
          (stPartial, cache0)).getD (stPartial, cache0)).1
      ((applyOps fsPartial [Op.resolveDir [], Op.toggleFile ["b"], Op.clickDir []]
          (stPartial, cache0)).getD (stPartial, cache0)).2 := by
  have hwf : WFNode fsPartial := by
    refine WFNode.dir _ (by decide) ?_
    intro e he
    simp [fsPartial] at he
    rcases he with he | he <;> (subst he; exact WFNode.file)
  have hco : Coherent fsPartial stPartial cache0 := by
    intro q s hq
    simp [cache0] at hq
  exact ⟨hwf, hco,
    (c3_cache_coherent_after_ops fsPartial
      [Op.resolveDir [], Op.toggleFile ["b"], Op.clickDir []]
      stPartial _ cache0 _ hwf hco rfl).1⟩

/-- C4: the claim says `invalidateAncestors` terminates for every path,
relative or absolute.  For an absolute path the loop
`while (current.has_parent_path() && !current.parent_path().empty())` never
terminates: once `current` reaches the root `"/"`, `parent_path("/")` is `"/"`
itself (a path with no relative part is its own parent), which is non-empty,
so the guard stays true forever and the loop keeps erasing `"/"`.  The
fuel-indexed loop exhausts every fuel on the absolute path `/a` (first
conjunct), while on the relative path `a/b` it terminates after erasing
exactly the parent `a` (second conjunct). -/
theorem c4_invalidate_absolute_loops :
    (∀ (fuel : Nat) (ca : CppPath → Option SelectionState),
      InvalidateParentCachesFuel fuel ⟨true, ["a"]⟩ ca = none) ∧
    (∀ ca : CppPath → Option SelectionState,
      InvalidateParentCachesFuel 2 ⟨false, ["a", "b"]⟩ ca
        = some (fun q => if q = ⟨false, ["a"]⟩ then none else ca q)) :=
  ⟨fun fuel ca => invalidateFuel_absolute fuel ⟨true, ["a"]⟩ rfl ca,
   fun _ => rfl⟩

/-- C5 counterexample: redrawing a tree containing one file, with no click
event, inserts a Store entry for that file: `bool& is_selected =
selection[path_string]` (main.cpp line 304) value-initializes an absent
`std::map` key to `false`.  The claim that a read-only redraw alone never
creates a Store entry is false. -/
theorem c5_counterexample :
    store0 ["f"] = none ∧
    (DrawDirectoryTree [] (.dir [("f", .file)]) (store0, cache0)).1 ["f"]
      = some false := by
  exact ⟨rfl, rfl⟩

/-- C5 (amended): a click-free redraw can create Store entries — rendering a
file row inserts a default `false` entry for that path when absent — but it
never changes the value of an existing entry and never creates a `true`
entry, so the set of selected (`true`) paths is exactly preserved. -/
theorem c5_redraw_only_default_false (p : Path) (n : FSNode) (st : Store)
    (ca : Cache) :
    StoreExtends st (DrawDirectoryTree p n (st, ca)).1 ∧
    ∀ q, ((DrawDirectoryTree p n (st, ca)).1 q = some true ↔ st q = some true) := by
  have h := storeExtends_draw p n (st, ca)
  refine ⟨h, fun q => ⟨fun ht => ?_, fun ht => h.1 q true ht⟩⟩
  by_cases hne : (DrawDirectoryTree p n (st, ca)).1 q = st q
  · rw [← hne]
    exact ht
  · have h2 := h.2 q hne
    rw [h2.2] at ht
    exact absurd ht (by simp)

/-- C6: when the child iteration of `CalculateAndCacheDirectoryState` stops
early because both flags became true after the `visited` prefix (and before
the non-empty `rest`), the returned aggregate equals the full-iteration
aggregate `PartiallySelected`, and every subdirectory in the visited prefix
has its own correct (from-scratch) tri-state cached as a side effect. -/
theorem c6_early_exit_still_cached (fs : FSNode) (st : Store) (p : Path)
    (visited rest : List (String × FSNode)) (ca : Cache)
    (hwf : WFNode (.dir (visited ++ rest)))
    (hfind : findNode fs p = some (.dir (visited ++ rest)))
    (hco : Coherent fs st ca) (hmiss : ca p = none)
    (hboth : pureChildren st p visited = (true, true))
    (hmin : ∀ k, k < visited.length →
      pureChildren st p (visited.take k) ≠ (true, true))
    (_hrest : rest ≠ []) :
    (CalculateAndCacheDirectoryState st p (.dir (visited ++ rest)) ca).1
      = SelectionState.PartiallySelected ∧
    pureNode st p (.dir (visited ++ rest)) = SelectionState.PartiallySelected ∧
    ∀ e ∈ visited, e.2 ≠ FSNode.file →
      (CalculateAndCacheDirectoryState st p (.dir (visited ++ rest)) ca).2
          (p ++ [e.1])
        = some (pureNode st (p ++ [e.1]) e.2) := by
  have hvne : visited ≠ [] := by
    intro hv
    rw [hv] at hboth
    simp [pureChildren] at hboth
  have hlne : visited ++ rest ≠ [] := by
    intro hv
    exact hvne (List.append_eq_nil.mp hv).1
  have hkeys : ∀ e ∈ visited ++ rest,
      findNode fs (p ++ [e.1]) = some e.2 ∧ WFNode e.2 := by
    intro e he
    cases hwf with
    | dir _ hnd hch =>
        exact ⟨findNode_child hfind (lookup_eq_of_mem hnd he), hch _ he⟩
  have hpure : pureNode st p (.dir (visited ++ rest))
      = SelectionState.PartiallySelected := by
    have happ := pureChildren_append st p visited rest
    rw [hboth] at happ
    simp only [pureNode, happ]
    simp [stateOfFlags]
  have hcc := calc_correct fs st p (.dir (visited ++ rest)) hwf hfind ca hco
  refine ⟨hcc.1.trans hpure, hpure, ?_⟩
  intro e he hne
  have hminb : ∀ k, k < visited.length →
      ((false || (pureChildren st p (visited.take k)).1)
        && (false || (pureChildren st p (visited.take k)).2)) = false := by
    intro k hk
    have hx := hmin k hk
    rcases hpc : pureChildren st p (visited.take k) with ⟨x1, x2⟩
    rw [hpc] at hx
    cases x1 <;> cases x2 <;> simp_all
  have hkey : p ++ [e.1] ≠ p := by
    intro hp
    have := congrArg List.length hp
    simp at this
  rw [calc_dir_cache st p (visited ++ rest) hlne ca hmiss]
  show upd (calcChildren st p (visited ++ rest) false false ca).2.2 p _
      (p ++ [e.1]) = _
  rw [upd_apply, if_neg hkey]
  exact calcChildren_caches_visited fs st p visited rest false false ca
    hkeys hco hminb e he hne

/-- C6 witness: directory with children `d` (a subdirectory whose file `x` is
selected), `b` (an unselected file) and `e` (a never-visited subdirectory):
after `d` the selected flag is set, after `b` both flags are set, the loop
stops before `e`, the aggregate is `Partial`, and `d` is correctly cached. -/
theorem c6_witness :
    WFNode (.dir (visitedEx ++ restEx)) ∧
    pureChildren stEarly [] visitedEx = (true, true) ∧
    (∀ k, k < visitedEx.length →
      pureChildren stEarly [] (visitedEx.take k) ≠ (true, true)) ∧
    restEx ≠ [] ∧
    (CalculateAndCacheDirectoryState stEarly [] (.dir (visitedEx ++ restEx))
        cache0).1 = SelectionState.PartiallySelected ∧
    ∀ e ∈ visitedEx, e.2 ≠ FSNode.file →
      (CalculateAndCacheDirectoryState stEarly [] (.dir (visitedEx ++ restEx))
          cache0).2 ([] ++ [e.1])
        = some (pureNode stEarly ([] ++ [e.1]) e.2) := by
  have hwf : WFNode (FSNode.dir (visitedEx ++ restEx)) := by
    refine WFNode.dir _ (by decide) ?_
    intro e he
    simp [visitedEx, restEx] at he
    rcases he with he | he | he
    · subst he
      exact WFNode.dir _ (by decide)
        (by intro e2 he2; simp at he2; subst he2; exact WFNode.file)
    · subst he
      exact WFNode.file
    · subst he
      exact WFNode.dir _ (by decide)
        (by intro e2 he2; simp at he2; subst he2; exact WFNode.file)
  have hco : Coherent (.dir (visitedEx ++ restEx)) stEarly cache0 := by
    intro q s hq
    simp [cache0] at hq
  have hres := c6_early_exit_still_cached (.dir (visitedEx ++ restEx)) stEarly
    [] visitedEx restEx cache0 hwf rfl hco rfl (by decide) (by decide)
    (by simp [restEx])
  exact ⟨hwf, by decide, by decide, by simp [restEx], hres.1, hres.2.2⟩

/-- C7: a directory whose listing fails with a filesystem error resolves to
`NotSelected`: `fs::is_empty` throws, the inner `catch` in
`CalculateAndCacheDirectoryState` swallows the error (it is not propagated —
the function is total in the model and returns normally), both flags stay
false, and the `NotSelected` result is cached under the directory's path. -/
theorem c7_unlistable_resolves_not_selected (fs : FSNode) (st : Store)
    (p : Path) (ca : Cache) (hfind : findNode fs p = some .badDir)
    (hco : Coherent fs st ca) :
    (CalculateAndCacheDirectoryState st p .badDir ca).1
      = SelectionState.NotSelected ∧
    (CalculateAndCacheDirectoryState st p .badDir ca).2 p
      = some SelectionState.NotSelected ∧
    Coherent fs st (CalculateAndCacheDirectoryState st p .badDir ca).2 := by
  have h := calc_correct fs st p .badDir WFNode.badDir hfind ca hco
  exact ⟨h.1, h.2.2, h.2.1⟩

/-- C7 witness: the unlistable directory `x` inside the concrete tree. -/
theorem c7_witness :
    findNode fsBad ["x"] = some FSNode.badDir ∧
    Coherent fsBad store0 cache0 ∧
    (CalculateAndCacheDirectoryState store0 ["x"] .badDir cache0).1
      = SelectionState.NotSelected := by
  have hco : Coherent fsBad store0 cache0 := by
    intro q s hq
    simp [cache0] at hq
  exact ⟨rfl, hco,
    (c7_unlistable_resolves_not_selected fsBad store0 ["x"] cache0 rfl hco).1⟩

/-- C8: `GenerateContext` emits, for each kept entry (value `true` and path a
readable regular file), the block `"--- " ++ path ++ " ---\n" ++ content ++
"\n"`, with `file_count` the number of kept entries and `token_count` the sum
of `content.length / 4` over kept entries; on the Store
`{/a.txt ↦ true, /b.txt ↦ false}` with `/a.txt` containing `"hello"` it
returns one block, `fileCount = 1` and `tokenEstimate = 1`. -/
theorem c8_generate_blocks (files : String → Option String)
    (l : List (String × Bool)) :
    GenerateContext files l
      = (((keptEntries files l).map (contextBlock files)).foldr (· ++ ·) "",
         (keptEntries files l).length,
         ((keptEntries files l).map
            (fun e => ((files e.1).getD "").length / 4)).sum) ∧
    GenerateContext exFiles [("/a.txt", true), ("/b.txt", false)]
      = ("--- /a.txt ---\nhello\n", 1, 1) :=
  ⟨generate_spec files l, by decide⟩

/-- C9: a Store entry marked `true` whose path is no longer a readable regular
file is silently skipped by `GenerateContext`: deleting it from the iteration
leaves the output text, the file count and the token estimate unchanged, and
no error is raised (the function is total). -/
theorem c9_deleted_entry_skipped (files : String → Option String)
    (l1 l2 : List (String × Bool)) (p : String) (h : files p = none) :
    GenerateContext files (l1 ++ (p, true) :: l2)
      = GenerateContext files (l1 ++ l2) := by
  induction l1 with
  | nil =>
      simp only [List.nil_append]
      rw [GenerateContext.eq_def]
      dsimp only
      rw [h]
  | cons e l1tl ih =>
      obtain ⟨pe, be⟩ := e
      simp only [List.cons_append]
      rw [GenerateContext.eq_def files ((pe, be) :: (l1tl ++ (p, true) :: l2)),
        GenerateContext.eq_def files ((pe, be) :: (l1tl ++ l2))]
      dsimp only
      rw [ih]

/-- C9 witness: the stale entry `/gone.txt` (marked `true`, no longer
readable) leaves the aggregation of `/a.txt` untouched. -/
theorem c9_witness :
    exFiles "/gone.txt" = none ∧
    GenerateContext exFiles [("/a.txt", true), ("/gone.txt", true)]
      = GenerateContext exFiles [("/a.txt", true)] :=
  ⟨rfl, c9_deleted_entry_skipped exFiles [("/a.txt", true)] [] "/gone.txt" rfl⟩

/-- C10: the claim says `setRecursive` never lets a filesystem failure escape
to the caller.  `SetSelectionRecursively` (main.cpp lines 147-159) has no
`try`/`catch`: recursing into a directory that contains an unlistable
subdirectory, the `fs::filesystem_error` thrown by `fs::directory_iterator`
propagates out of the function (and out of the click handler and `main`, which
do not catch it either — `std::terminate`).  Evaluated on the concrete tree
with unlistable child `x`, the call produces the uncaught error instead of
completing. -/
theorem c10_setRecursive_uncaught_error :
    SetSelectionRecursively true [] fsBad store0 cache0 = .error () := rfl

end DirContext